import Mathlib

/-!
Verification of the RadExtract batch extraction and record reconciliation
engine.  The definitions below are a shallow embedding of the TypeScript
source: `types.ts` / `constants.ts` (data model), `App.tsx`
(`handleDataLoaded`, `handleUpdatePatient`, `handleBatchProcess`),
`components/PatientUploader.tsx` (`calculateTimeToStudy`,
`handleFolderUpload`) and `services/geminiService.ts`
(`extractDataFromReport`).

JavaScript conventions are modelled as follows: a possibly-absent string
field is `Option String` (`none` = `undefined`/`null`); string truthiness
(`!s`, `s || t`) is `truthy` / `jsOr`; an object's dynamic columns are an
association list `List (String × String)` with first-match lookup and the
spread `\x7b...existing, ...incoming\x7d` key-ordering semantics
(`mergeMeta`); opaque asynchronous collaborators (the Gemini call, the
`Date` parser) are function parameters.
-/

/-- Extraction lifecycle states appearing in the source
(`'PENDING' | 'EXTRACTED' | 'REVIEWED' | 'ERROR'`). -/
inductive ExtractionStatus where
  | PENDING
  | EXTRACTED
  | REVIEWED
  | ERROR
deriving DecidableEq

/-- The structured result of one extraction (`types.ts`, `ExtractedData`):
integer-coded findings plus free-text fields. -/
structure ExtractedData where
  injury_mechanism : Int
  fractures : Int
  fractures_cspine : Int
  fractures_calvarium : Int
  fractures_skull_base : Int
  fractures_leforte : Int
  fractures_cricoid : Int
  fractures_hyoid : Int
  fractures_larynx : Int
  vascular_injury : Int
  vessel_carotid : Int
  vessel_vertebral : Int
  vessel_internal_jugular : Int
  vessel_other : Int
  vessel_other_specify : String
  vascular_report_comments : String
  biffl_grading_used : Int
  biffl_grade : String
  biffl_grade_comments : String
  reviewed_biffl_grade : String
  brain_pathology : Int
  brain_pathology_details : Int
  brain_pathology_comments : String
  ipv_history : Int
  gcs : String
  intubated : Int
  soft_tissue_injury : Int
  loc : Int
  neuro_impaired : Int
  seizures : Int
  neck_pain : Int
  dysphagia : Int
  hoarseness : Int
  bruising : Int
  ligature : Int
  swelling : Int
  subconj_hemorrhages : Int
  c_spine_tenderness : Int

/-- `constants.ts`: the all-defaults template `EMPTY_EXTRACTION`. -/
def EMPTY_EXTRACTION : ExtractedData :=
  { injury_mechanism := 0
    fractures := 0
    fractures_cspine := 0
    fractures_calvarium := 0
    fractures_skull_base := 0
    fractures_leforte := 0
    fractures_cricoid := 0
    fractures_hyoid := 0
    fractures_larynx := 0
    vascular_injury := 0
    vessel_carotid := 0
    vessel_vertebral := 0
    vessel_internal_jugular := 0
    vessel_other := 0
    vessel_other_specify := ""
    vascular_report_comments := ""
    biffl_grading_used := 0
    biffl_grade := ""
    biffl_grade_comments := ""
    reviewed_biffl_grade := ""
    brain_pathology := 0
    brain_pathology_details := 0
    brain_pathology_comments := ""
    ipv_history := 0
    gcs := ""
    intubated := 0
    soft_tissue_injury := 0
    loc := 0
    neuro_impaired := 0
    seizures := 0
    neck_pain := 0
    dysphagia := 0
    hoarseness := 0
    bruising := 0
    ligature := 0
    swelling := 0
    subconj_hemorrhages := 0
    c_spine_tenderness := 0 }

/-- One row of cohort metadata (`types.ts`, `PatientRecord`): the natural
key `id`, the dynamic column set, and the optional report-attachment
fields an incoming row may carry (from the uploader's merged local list). -/
structure PatientRecord where
  id : String
  meta : List (String × String)
  radiologyReportText : Option String
  reportFilename : Option String

/-- A roster entry (`types.ts`, `MergedRecord`): cohort metadata plus the
extraction lifecycle fields. -/
structure MergedRecord where
  id : String
  meta : List (String × String)
  radiologyReportText : Option String
  reportFilename : Option String
  extractionStatus : ExtractionStatus
  extractedData : Option ExtractedData
  extractionError : Option String

/-- JavaScript string truthiness: `undefined`, `null` and `""` are falsy. -/
def truthy : Option String → Bool
  | none => false
  | some s => !(s == "")

/-- JavaScript `a || b` on possibly-absent strings: `a` when truthy,
otherwise `b`. -/
def jsOr (a b : Option String) : Option String :=
  if truthy a then a else b

/-- First-match lookup in an object's dynamic column list. -/
def metaLookup : List (String × String) → String → Option String
  | [], _ => none
  | kv :: rest, k => if kv.1 = k then some kv.2 else metaLookup rest k

/-- One existing entry after the spread `\x7b...existing, ...incoming\x7d`:
its value is replaced when `incoming` has the same key. -/
def owUpdate (i : List (String × String)) (kv : String × String) :
    String × String :=
  match metaLookup i kv.1 with
  | some v => (kv.1, v)
  | none => kv

/-- Dynamic-column semantics of the object spread
`\x7b...existing, ...incoming\x7d`: existing keys keep their positions with
incoming values winning, and keys only in `incoming` are appended in order. -/
def mergeMeta (e i : List (String × String)) : List (String × String) :=
  e.map (owUpdate i) ++ i.filter (fun kv => (metaLookup e kv.1).isNone)

/-- `App.tsx` `handleDataLoaded`, UPDATE branch: spread of existing under
incoming, with `radiologyReportText` / `reportFilename` kept unless the
incoming row supplies a truthy value (`incoming.x || existing.x`) and the
three extraction fields always carried over from the existing record. -/
def mergeRecord (existing : MergedRecord) (incoming : PatientRecord) :
    MergedRecord :=
  { id := incoming.id
    meta := mergeMeta existing.meta incoming.meta
    radiologyReportText :=
      jsOr incoming.radiologyReportText existing.radiologyReportText
    reportFilename := jsOr incoming.reportFilename existing.reportFilename
    extractionStatus := existing.extractionStatus
    extractedData := existing.extractedData
    extractionError := existing.extractionError }

/-- `App.tsx` `handleDataLoaded`, INSERT branch:
`\x7b...incoming, extractionStatus: 'PENDING'\x7d`. -/
def insertRecord (incoming : PatientRecord) : MergedRecord :=
  { id := incoming.id
    meta := incoming.meta
    radiologyReportText := incoming.radiologyReportText
    reportFilename := incoming.reportFilename
    extractionStatus := .PENDING
    extractedData := none
    extractionError := none }

/-- One incoming row upserted into the roster: update the first record
with a matching `id` in place (`findIndex` + assignment), otherwise push
a new `PENDING` record at the end. -/
def reconcileOne : List MergedRecord → PatientRecord → List MergedRecord
  | [], inc => [insertRecord inc]
  | p :: rest, inc =>
    if p.id = inc.id then mergeRecord p inc :: rest
    else p :: reconcileOne rest inc

/-- `App.tsx` `handleDataLoaded`: fold every incoming row into the roster. -/
def handleDataLoaded (prev : List MergedRecord)
    (incoming : List PatientRecord) : List MergedRecord :=
  incoming.foldl reconcileOne prev

/-- `App.tsx` `handleUpdatePatient`: replace every record whose `id`
matches the updated record. -/
def handleUpdatePatient (prev : List MergedRecord) (updated : MergedRecord) :
    List MergedRecord :=
  prev.map (fun p => if p.id = updated.id then updated else p)

/-- Batch eligibility (`handleBatchProcess` queue filter): truthy report
text and status `PENDING` or `ERROR`. -/
def eligible (p : MergedRecord) : Bool :=
  truthy p.radiologyReportText &&
    (p.extractionStatus == .PENDING || p.extractionStatus == .ERROR)

/-- The queue snapshot computed at batch start. -/
def batchQueue (roster : List MergedRecord) : List MergedRecord :=
  roster.filter eligible

/-- Case-sensitive containment of `needle` in `hay`, character-exact
(JavaScript `hay.includes(needle)`). -/
def charsContain : List Char → List Char → Bool
  | [], needle => needle.isEmpty
  | c :: t, needle => needle.isPrefixOf (c :: t) || charsContain t needle

/-- JavaScript `hay.includes(needle)` on strings. -/
def strContains (hay needle : String) : Bool :=
  charsContain hay.data needle.data

/-- JavaScript `hay.endsWith(suffix)`. -/
def strEndsWith (hay suffix : String) : Bool :=
  suffix.data.isSuffixOf hay.data

/-- One uploaded file: name, MIME type and text content. -/
structure ReportFile where
  name : String
  ftype : String
  content : String

/-- The filename heuristic of `handleFolderUpload`:
`file.name.includes(r.id) || (r.id.length > 3 && file.name.includes(r.id))`. -/
def reportMatch (f : ReportFile) (r : MergedRecord) : Bool :=
  strContains f.name r.id ||
    (decide (3 < r.id.length) && strContains f.name r.id)

/-- `handleFolderUpload` processes a file unless it neither ends in `.txt`
nor has a text MIME type. -/
def isTextFile (f : ReportFile) : Bool :=
  strEndsWith f.name ".txt" || strContains f.ftype "text"

/-- Attach one file to the first matching roster record (in place),
leaving the roster unchanged when nothing matches. -/
def attachReport : List MergedRecord → ReportFile → List MergedRecord
  | [], _ => []
  | r :: rest, f =>
    if reportMatch f r then
      { r with radiologyReportText := some f.content,
               reportFilename := some f.name } :: rest
    else r :: attachReport rest f

/-- `PatientUploader.tsx` `handleFolderUpload`: fold the uploaded files
over the record list, skipping non-text files. -/
def handleFolderUpload (records : List MergedRecord)
    (files : List ReportFile) : List MergedRecord :=
  files.foldl (fun acc f => if isTextFile f then attachReport acc f else acc)
    records

/-- The settled outcome of one chunk item: the patient's `id` and either
the extraction result or the caught error message. -/
structure ItemResult where
  id : String
  outcome : Except String ExtractedData

/-- The per-record transition of the bulk ledger write in
`handleBatchProcess`: on success set the data, mark `REVIEWED` and clear
the error; on failure mark `ERROR` and record the message. -/
def applyOutcome (p : MergedRecord) :
    Except String ExtractedData → MergedRecord
  | .ok d =>
    { p with extractedData := some d, extractionStatus := .REVIEWED,
             extractionError := none }
  | .error m =>
    { p with extractionStatus := .ERROR, extractionError := some m }

/-- Apply one settled result to the first roster record with its `id`
(`findIndex` + in-place assignment); records with other ids are untouched. -/
def applyResult : List MergedRecord → ItemResult → List MergedRecord
  | [], _ => []
  | p :: rest, res =>
    if p.id = res.id then applyOutcome p res.outcome :: rest
    else p :: applyResult rest res

/-- The bulk state write after a chunk settles (`results.forEach` over the
copied roster). -/
def applyResults (roster : List MergedRecord) (results : List ItemResult) :
    List MergedRecord :=
  results.foldl applyResult roster

/-- One dispatched call: the extraction collaborator applied to the queue
item's report text, together with the item's id. -/
def mkItemResult (extract : String → Except String ExtractedData)
    (p : MergedRecord) : ItemResult :=
  ⟨p.id, extract (p.radiologyReportText.getD "")⟩

/-- Observable behaviour of one batch run: the chunks dispatched in order,
the progress pairs reported after each chunk, and the final roster. -/
structure BatchTrace where
  chunksDispatched : List (List MergedRecord)
  progress : List (Nat × Nat)
  final : List MergedRecord

/-- The chunked loop of `handleBatchProcess`
(`for (let i = 0; i < queue.length; i += BATCH_SIZE)`): take the next
`n` queue items, dispatch them, bulk-apply the settled results, report
`(min total (i + n), total)`, and continue on the remaining queue.  The
`fuel` argument makes the recursion structural; it is adequate whenever
`fuel` is at least the remaining queue length and `0 < n`. -/
def runBatchLoop (extract : String → Except String ExtractedData)
    (n total : Nat) : Nat → List MergedRecord → Nat → List MergedRecord →
    BatchTrace
  | _, [], _, roster => ⟨[], [], roster⟩
  | 0, _ :: _, _, roster => ⟨[], [], roster⟩
  | fuel + 1, h :: t, i, roster =>
    let chunk := (h :: t).take n
    let roster2 := applyResults roster (chunk.map (mkItemResult extract))
    let rest := runBatchLoop extract n total fuel ((h :: t).drop n) (i + n)
      roster2
    ⟨chunk :: rest.chunksDispatched,
     (min total (i + n), total) :: rest.progress, rest.final⟩

/-- `App.tsx` `handleBatchProcess`: snapshot the eligibility queue, then
run the chunked loop with `BATCH_SIZE = 5` concurrent items per chunk.
An empty queue returns immediately with the roster unchanged. -/
def handleBatchProcess (extract : String → Except String ExtractedData)
    (roster : List MergedRecord) : BatchTrace :=
  let queue := batchQueue roster
  runBatchLoop extract 5 queue.length queue.length queue 0 roster

/-- Chunking of a list into consecutive runs of `n` (fuel-indexed, same
recursion pattern as `runBatchLoop`). -/
def chunkListAux (n : Nat) : Nat → List MergedRecord →
    List (List MergedRecord)
  | _, [] => []
  | 0, _ :: _ => []
  | fuel + 1, h :: t => (h :: t).take n :: chunkListAux n fuel ((h :: t).drop n)

/-- The chunks `queue.slice(i, i + n)` visited by the batch loop. -/
def chunkList (n : Nat) (l : List MergedRecord) :
    List (List MergedRecord) :=
  chunkListAux n l.length l

/-- A failure thrown by the extraction call: the caught error's optional
`message` and optional numeric `status`. -/
structure ApiError where
  message : Option String
  status : Option Nat

/-- `geminiService.ts` retry classification:
`error.message?.includes('429') || error.message?.includes('503') ||
error.status === 429 || error.status === 503`. -/
def isRetryable (e : ApiError) : Bool :=
  (match e.message with | some m => strContains m "429" | none => false) ||
  (match e.message with | some m => strContains m "503" | none => false) ||
  e.status == some 429 || e.status == some 503

/-- `geminiService.ts` `extractDataFromReport` retry shell.  The opaque
attempt (build prompt, call Gemini, parse the JSON) is the collaborator
`attempt`, indexed by invocation number `k`.  Returns the final outcome,
the number of invocations made, and the list of backoff delays in seconds
(`(4 - retries) * 2`, i.e. 2, 4, 6 from the default `retries = 3`). -/
def extractDataFromReport (attempt : Nat → Except ApiError ExtractedData) :
    Nat → Nat → Except ApiError ExtractedData × Nat × List Nat
  | k, 0 =>
    match attempt k with
    | .ok d => (.ok d, 1, [])
    | .error e => (.error e, 1, [])
  | k, r + 1 =>
    match attempt k with
    | .ok d => (.ok d, 1, [])
    | .error e =>
      if isRetryable e then
        let rest := extractDataFromReport attempt (k + 1) r
        (rest.1, rest.2.1 + 1, (4 - (r + 1)) * 2 :: rest.2.2)
      else (.error e, 1, [])

/-- `PatientUploader.tsx` `calculateTimeToStudy`.  The host `Date` parser
is the collaborator `parseDate`, returning the epoch milliseconds or
`none` when `getTime()` is `NaN`.  Falsy inputs give `""`; unparsable
inputs give `""`; a negative span gives the sentinel `"Error"`; otherwise
whole hours and remaining minutes are formatted as in the template string. -/
def calculateTimeToStudy (parseDate : String → Option Int)
    (startInput endInput : Option String) : String :=
  if !(truthy startInput) || !(truthy endInput) then ""
  else
    match parseDate (startInput.getD ""), parseDate (endInput.getD "") with
    | some s, some e =>
      let diffMs := e - s
      if diffMs < 0 then "Error"
      else
        let totalMinutes := diffMs.toNat / (1000 * 60)
        let hours := totalMinutes / 60
        let minutes := totalMinutes % 60
        toString hours ++ "h " ++ toString minutes ++ "m"
    | _, _ => ""

/-- Roster states reachable through the sanctioned operations: the empty
initial roster, cohort import/merge, report matching, a batch run, and the
single-record write `handleUpdatePatient` as performed by `AnalysisView`
(`handleExtract` success and `handleFieldChange` both replace the record
with one carrying `extractedData` and status `REVIEWED`). -/
inductive Reachable : List MergedRecord → Prop where
  | empty : Reachable []
  | load (R : List MergedRecord) (B : List PatientRecord) :
      Reachable R → Reachable (handleDataLoaded R B)
  | upload (R : List MergedRecord) (files : List ReportFile) :
      Reachable R → Reachable (handleFolderUpload R files)
  | batch (R : List MergedRecord)
      (extract : String → Except String ExtractedData) :
      Reachable R → Reachable (handleBatchProcess extract R).final
  | review (R : List MergedRecord) (pat : MergedRecord) (text : String)
      (d : ExtractedData) :
      Reachable R →
      Reachable (handleUpdatePatient R
        { pat with radiologyReportText := some text,
                   extractedData := some d,
                   extractionStatus := .REVIEWED })

/-- The ledger invariant of one record: `extractedData` is present exactly
when the status is `EXTRACTED` or `REVIEWED`. -/
def goodRec (p : MergedRecord) : Prop :=
  p.extractedData.isSome = true ↔
    (p.extractionStatus = .EXTRACTED ∨ p.extractionStatus = .REVIEWED)

/-- A simple roster record for concrete test rosters. -/
def demoRec (i : String) (rt : Option String) (st : ExtractionStatus)
    (ed : Option ExtractedData) : MergedRecord :=
  { id := i, meta := [], radiologyReportText := rt, reportFilename := none,
    extractionStatus := st, extractedData := ed, extractionError := none }

/-- The five-record roster of the eligibility example: two `PENDING` with
text, one `ERROR` with text, one `REVIEWED`, one without text. -/
def demoEligRoster : List MergedRecord :=
  [ demoRec "101" (some "report a") .PENDING none,
    demoRec "102" (some "report b") .PENDING none,
    demoRec "103" (some "report c") .ERROR none,
    demoRec "104" (some "report d") .REVIEWED (some EMPTY_EXTRACTION),
    demoRec "105" none .PENDING none ]

/-- Twelve eligible records, for the chunked-concurrency example. -/
def demoBatchRoster : List MergedRecord :=
  ["p01", "p02", "p03", "p04", "p05", "p06", "p07", "p08", "p09", "p10",
   "p11", "p12"].map (fun s => demoRec s (some "report text") .PENDING none)

/-- Ten eligible records, for the cancellation analysis. -/
def demoTenRoster : List MergedRecord :=
  ["q01", "q02", "q03", "q04", "q05", "q06", "q07", "q08", "q09",
   "q10"].map (fun s => demoRec s (some "report text") .PENDING none)

/-- A collaborator that always succeeds with the defaults template. -/
def demoExtract : String → Except String ExtractedData :=
  fun _ => .ok EMPTY_EXTRACTION

/-- Folding a per-id run of incoming rows into one record by the UPDATE
branch (used to characterise `handleDataLoaded`). -/
def foldMergeRec (e : MergedRecord) (L : List PatientRecord) : MergedRecord :=
  L.foldl mergeRecord e

/-- Composition of two incoming rows as a single incoming row: applying
`y` then `d` to an existing record equals applying `mergeInc y d` once. -/
def mergeInc (y d : PatientRecord) : PatientRecord :=
  { id := d.id
    meta := mergeMeta y.meta d.meta
    radiologyReportText := jsOr d.radiologyReportText y.radiologyReportText
    reportFilename := jsOr d.reportFilename y.reportFilename }

/-- Records appended by a batch of incoming rows: the first row with each
new id inserts, later rows with the same id update in place
(fuel-indexed; adequate when `fuel` is at least the list length). -/
def buildNewAux : Nat → List PatientRecord → List MergedRecord
  | _, [] => []
  | 0, _ :: _ => []
  | fuel + 1, b :: B =>
    foldMergeRec (insertRecord b) (B.filter (fun x => x.id == b.id)) ::
      buildNewAux fuel (B.filter (fun x => !(x.id == b.id)))

/-- Records appended by a batch of incoming rows hitting no existing id. -/
def buildNew (B : List PatientRecord) : List MergedRecord :=
  buildNewAux B.length B

/-- Closed form of `handleDataLoaded`: each roster record absorbs the
incoming rows carrying its id (first occurrence only, matching
`findIndex`), and rows with fresh ids build appended records. -/
def onePass : List MergedRecord → List PatientRecord → List MergedRecord
  | [], B => buildNew B
  | r :: rest, B =>
    foldMergeRec r (B.filter (fun x => x.id == r.id)) ::
      onePass rest (B.filter (fun x => !(x.id == r.id)))

/-- The first roster record carrying a given id (`findIndex` target). -/
def findRec (nd : List MergedRecord) (x : String) : Option MergedRecord :=
  nd.find? (fun p => p.id == x)

/-- The id column of a roster. -/
def idsOf (nd : List MergedRecord) : List String :=
  nd.map MergedRecord.id

/-- Every record of a roster satisfies the ledger invariant. -/
def allGood (nd : List MergedRecord) : Prop :=
  ∀ p ∈ nd, goodRec p

/-- The keys of an object's dynamic column list. -/
def metaKeys (m : List (String × String)) : List String :=
  m.map Prod.fst

/-- A JavaScript object row has no duplicate keys. -/
def rowNodup (b : PatientRecord) : Prop :=
  (metaKeys b.meta).Nodup

/-- Concrete incoming rows and files for witnesses. -/
def demoIncomingA : PatientRecord :=
  ⟨"101", [("Name", "Updated Name"), ("Gender", "F")], none, none⟩

def demoIncomingB : PatientRecord :=
  ⟨"201", [("Name", "New Patient")], some "new report text", none⟩

def demoFile : ReportFile :=
  ⟨"101_report.txt", "text/plain", "CT neck: no acute findings."⟩

/-- A concrete stand-in for the host date parser, defined on the two
timestamps of the worked example. -/
def demoParseDate : String → Option Int := fun s =>
  if s = "2024-01-15T08:00" then some 0
  else if s = "2024-01-15T10:30" then some 9000000
  else none

/-- An extraction attempt that always fails with a 429 signature. -/
def always429 : Nat → Except ApiError ExtractedData :=
  fun _ => .error ⟨some "429 Too Many Requests", none⟩

/-- An extraction attempt that always fails with an auth signature. -/
def authFailAttempt : Nat → Except ApiError ExtractedData :=
  fun _ => .error ⟨some "API Key is missing or invalid.", none⟩

/-- An extraction attempt that always fails with a quota/exhausted message
that does not contain the literal substrings 429 or 503. -/
def quotaAttempt : Nat → Except ApiError ExtractedData :=
  fun _ => .error ⟨some "Resource has been exhausted (check quota).", none⟩

/-- C1: a record qualifies for the batch queue iff it has a non-empty
`radiologyReportText` and its `extractionStatus` is `PENDING` or `ERROR`;
on the 5-record example roster (two PENDING with text, one ERROR with
text, one REVIEWED, one without text) the queue has length exactly 3. -/
theorem batch_eligibility_queue :
    (∀ (roster : List MergedRecord) (p : MergedRecord),
        p ∈ batchQueue roster ↔
          p ∈ roster ∧ truthy p.radiologyReportText = true ∧
            (p.extractionStatus = .PENDING ∨ p.extractionStatus = .ERROR)) ∧
    (batchQueue demoEligRoster).length = 3 := by
  refine ⟨fun roster p => ?_, by decide⟩
  simp [batchQueue, eligible, List.mem_filter, and_assoc]

/-- C10: `calculateTimeToStudy` returns `""` when either input is falsy
or fails to parse, the sentinel `"Error"` on a negative span, and
otherwise formats the span as whole hours plus remaining minutes; in
particular a 2.5-hour span prints as `"2h 30m"`. -/
theorem time_to_study_spec (parseDate : String → Option Int) :
    (∀ a b, truthy a = false ∨ truthy b = false →
        calculateTimeToStudy parseDate a b = "") ∧
    (∀ sa sb, truthy (some sa) = true → truthy (some sb) = true →
        (parseDate sa = none ∨ parseDate sb = none) →
        calculateTimeToStudy parseDate (some sa) (some sb) = "") ∧
    (∀ sa sb s e, truthy (some sa) = true → truthy (some sb) = true →
        parseDate sa = some s → parseDate sb = some e → e - s < 0 →
        calculateTimeToStudy parseDate (some sa) (some sb) = "Error") ∧
    (∀ sa sb s e, truthy (some sa) = true → truthy (some sb) = true →
        parseDate sa = some s → parseDate sb = some e → 0 ≤ e - s →
        calculateTimeToStudy parseDate (some sa) (some sb) =
            toString ((e - s).toNat / (1000 * 60) / 60) ++ "h " ++
              toString ((e - s).toNat / (1000 * 60) % 60) ++ "m" ∧
          60 * ((e - s).toNat / (1000 * 60) / 60) +
              (e - s).toNat / (1000 * 60) % 60 =
            (e - s).toNat / (1000 * 60) ∧
          (e - s).toNat / (1000 * 60) % 60 < 60) ∧
    (∀ s : Int, parseDate "2024-01-15T08:00" = some s →
        parseDate "2024-01-15T10:30" = some (s + 9000000) →
        calculateTimeToStudy parseDate (some "2024-01-15T08:00")
          (some "2024-01-15T10:30") = "2h 30m") := by
  refine ⟨?_, ?_, ?_, ?_, ?_⟩
  · intro a b h
    rcases h with h | h <;> simp [calculateTimeToStudy, h]
  · intro sa sb h1 h2 h3
    rcases h3 with h3 | h3 <;> simp [calculateTimeToStudy, h1, h2, h3]
  · intro sa sb s e h1 h2 h3 h4 h5
    simp [calculateTimeToStudy, h1, h2, h3, h4, h5]
  · intro sa sb s e h1 h2 h3 h4 h5
    have hns : ¬(e - s < 0) := not_lt.mpr h5
    refine ⟨?_, by omega, by omega⟩
    simp [calculateTimeToStudy, h1, h2, h3, h4, hns]
  · intro s h1 h2
    have h5 : (0 : Int) ≤ s + 9000000 - s := by omega
    have hns : ¬(s + 9000000 - s < 0) := not_lt.mpr h5
    have hd : (s + 9000000 - s).toNat = 9000000 := by omega
    simp [calculateTimeToStudy, h1, h2, truthy, hns, hd]
    decide

/-- Witness for `time_to_study_spec` at the concrete demo parser. -/
theorem time_to_study_spec_witness :
    calculateTimeToStudy demoParseDate (some "2024-01-15T08:00")
        (some "2024-01-15T10:30") = "2h 30m" ∧
      calculateTimeToStudy demoParseDate none (some "2024-01-15T10:30") = "" :=
  ⟨(time_to_study_spec demoParseDate).2.2.2.2 0 (by decide) (by decide),
   (time_to_study_spec demoParseDate).1 none _ (Or.inl rfl)⟩

/-- C6 counterexample: a failure whose message contains "quota" and
"exhausted" (but not the literal substrings 429/503) is NOT classified
retryable by the code, and a single logical call invokes the extractor
exactly once on it — the claim's classification table says such a failure
is transient and retried. -/
theorem retry_quota_not_retried :
    strContains "Resource has been exhausted (check quota)." "quota" = true ∧
    strContains "Resource has been exhausted (check quota)." "exhausted" =
      true ∧
    isRetryable ⟨some "Resource has been exhausted (check quota).", none⟩ =
      false ∧
    (extractDataFromReport quotaAttempt 0 3).2.1 = 1 := by
  decide

/-- C6 (amended): the call retries only on failures whose status is 429
or 503 or whose message contains the literal substring "429" or "503"
(`isRetryable`); it makes at most `retries + 1` invocations; a
non-retryable failure propagates immediately after one invocation; an
always-retryable failure with the default `retries = 3` gives exactly 4
invocations with delays 2, 4, 6 seconds and propagates the error; and
when every attempt fails retryably the final outcome is the last
attempt's. -/
theorem retry_policy (attempt : Nat → Except ApiError ExtractedData)
    (e : ApiError) :
    (∀ k r, (extractDataFromReport attempt k r).2.1 ≤ r + 1) ∧
    (∀ k r, attempt k = .error e → isRetryable e = false →
        extractDataFromReport attempt k r = (.error e, 1, [])) ∧
    ((∀ j, attempt j = .error e) → isRetryable e = true →
        extractDataFromReport attempt 0 3 = (.error e, 4, [2, 4, 6])) ∧
    (∀ k r, (∀ j, ∃ ej, attempt j = .error ej ∧ isRetryable ej = true) →
        (extractDataFromReport attempt k r).1 = attempt (k + r) ∧
        (extractDataFromReport attempt k r).2.1 = r + 1) := by
  refine ⟨?_, ?_, ?_, ?_⟩
  · intro k r
    induction r generalizing k with
    | zero =>
      rcases h : attempt k with d | e2 <;>
        simp [extractDataFromReport, h]
    | succ r ih =>
      rcases h : attempt k with err | d
      · cases hr : isRetryable err
        · simp [extractDataFromReport, h, hr]
        · simp [extractDataFromReport, h, hr]
          have := ih (k + 1)
          omega
      · simp [extractDataFromReport, h]
  · intro k r h hre
    cases r <;> simp [extractDataFromReport, h, hre]
  · intro hall hre
    simp [extractDataFromReport, hall 0, hall 1, hall 2, hall 3, hre]
  · intro k r hall
    induction r generalizing k with
    | zero =>
      obtain ⟨e0, h0, hre0⟩ := hall k
      simp [extractDataFromReport, h0, hre0]
    | succ r ih =>
      obtain ⟨e0, h0, hre0⟩ := hall k
      have hrec := ih (k + 1)
      simp [extractDataFromReport, h0, hre0]
      constructor
      · have : k + 1 + r = k + (r + 1) := by omega
        rw [← this]
        exact hrec.1
      · exact hrec.2
  
/-- Witness for `retry_policy`: the always-429 attempt is invoked four
times with backoff 2, 4, 6 and the error propagates; the auth failure is
never retried. -/
theorem retry_policy_witness :
    extractDataFromReport always429 0 3 =
        (.error ⟨some "429 Too Many Requests", none⟩, 4, [2, 4, 6]) ∧
      extractDataFromReport authFailAttempt 0 3 =
        (.error ⟨some "API Key is missing or invalid.", none⟩, 1, []) :=
  ⟨(retry_policy always429 ⟨some "429 Too Many Requests", none⟩).2.2.1
      (fun _ => rfl) (by decide),
   (retry_policy authFailAttempt
      ⟨some "API Key is missing or invalid.", none⟩).2.1 0 3 rfl (by decide)⟩

/-- C2: the bulk ledger write after a chunk applies exactly the
success/failure transition to the first record carrying the item's id —
success sets the data, marks `REVIEWED` and clears the error; failure
marks `ERROR`, records the message and leaves the data untouched — and
every other field and every other record is unchanged. -/
theorem chunk_write_transition (pre rest : List MergedRecord)
    (p : MergedRecord) (res : ItemResult)
    (hpre : ∀ q ∈ pre, q.id ≠ res.id) (hp : p.id = res.id) :
    applyResult (pre ++ p :: rest) res =
        pre ++ applyOutcome p res.outcome :: rest ∧
      (∀ d : ExtractedData,
        (applyOutcome p (.ok d)).extractedData = some d ∧
          (applyOutcome p (.ok d)).extractionStatus = .REVIEWED ∧
          (applyOutcome p (.ok d)).extractionError = none) ∧
      (∀ m : String,
        (applyOutcome p (.error m)).extractionStatus = .ERROR ∧
          (applyOutcome p (.error m)).extractionError = some m ∧
          (applyOutcome p (.error m)).extractedData = p.extractedData) ∧
      (∀ o : Except String ExtractedData,
        (applyOutcome p o).id = p.id ∧ (applyOutcome p o).meta = p.meta ∧
          (applyOutcome p o).radiologyReportText = p.radiologyReportText ∧
          (applyOutcome p o).reportFilename = p.reportFilename) := by
  refine ⟨?_, ?_, ?_, ?_⟩
  · induction pre with
    | nil => simp [applyResult, hp]
    | cons q pre ih =>
      have hq : q.id ≠ res.id := hpre q (by simp)
      have ih2 := ih (fun x hx => hpre x (by simp [hx]))
      simp only [List.cons_append, applyResult, if_neg hq, List.append_eq]
      rw [ih2]
  · intro d
    simp [applyOutcome]
  · intro m
    simp [applyOutcome]
  · intro o
    cases o <;> simp [applyOutcome]

/-- Witness for `chunk_write_transition` at a concrete roster and a
concrete successful item. -/
theorem chunk_write_transition_witness :
    applyResult
        ([demoRec "201" none .PENDING none] ++
          demoRec "202" (some "t") .PENDING none :: [])
        ⟨"202", .ok EMPTY_EXTRACTION⟩ =
      [demoRec "201" none .PENDING none] ++
        applyOutcome (demoRec "202" (some "t") .PENDING none)
          (Except.ok EMPTY_EXTRACTION) :: [] :=
  (chunk_write_transition [demoRec "201" none .PENDING none] []
    (demoRec "202" (some "t") .PENDING none) ⟨"202", .ok EMPTY_EXTRACTION⟩
    (by decide) (by decide)).1

/-- Attaching one file changes no record's `extractionStatus` and never
removes an attached report. -/
theorem attachReport_frame (nd : List MergedRecord) (f : ReportFile) :
    List.Forall₂ (fun a b => b.extractionStatus = a.extractionStatus ∧
        (a.radiologyReportText.isSome = true →
          b.radiologyReportText.isSome = true))
      nd (attachReport nd f) := by
  induction nd with
  | nil => exact List.Forall₂.nil
  | cons r rest ih =>
    by_cases h : reportMatch f r = true
    · simp only [attachReport, if_pos h]
      exact List.Forall₂.cons ⟨rfl, fun _ => rfl⟩
        (List.forall₂_same.mpr (fun x _ => ⟨rfl, id⟩))
    · simp only [attachReport, if_neg h]
      exact List.Forall₂.cons ⟨rfl, id⟩ ih

/-- The status/report frame relation composes. -/
theorem reportFrame_trans {l1 l2 l3 : List MergedRecord}
    (h12 : List.Forall₂ (fun a b => b.extractionStatus = a.extractionStatus ∧
        (a.radiologyReportText.isSome = true →
          b.radiologyReportText.isSome = true)) l1 l2)
    (h23 : List.Forall₂ (fun a b => b.extractionStatus = a.extractionStatus ∧
        (a.radiologyReportText.isSome = true →
          b.radiologyReportText.isSome = true)) l2 l3) :
    List.Forall₂ (fun a b => b.extractionStatus = a.extractionStatus ∧
        (a.radiologyReportText.isSome = true →
          b.radiologyReportText.isSome = true)) l1 l3 := by
  induction h12 generalizing l3 with
  | nil => cases h23; exact .nil
  | cons hab h ih =>
    cases h23 with
    | cons hbc h2 =>
      exact .cons ⟨hbc.1.trans hab.1, fun hx => hbc.2 (hab.2 hx)⟩ (ih h2)

/-- The whole folder upload changes no record's `extractionStatus` and
never removes an attached report. -/
theorem handleFolderUpload_frame (files : List ReportFile)
    (nd : List MergedRecord) :
    List.Forall₂ (fun a b => b.extractionStatus = a.extractionStatus ∧
        (a.radiologyReportText.isSome = true →
          b.radiologyReportText.isSome = true))
      nd (handleFolderUpload nd files) := by
  induction files generalizing nd with
  | nil => exact List.forall₂_same.mpr (fun x _ => ⟨rfl, id⟩)
  | cons f fs ih =>
    have hstep : List.Forall₂ (fun a b =>
        b.extractionStatus = a.extractionStatus ∧
        (a.radiologyReportText.isSome = true →
          b.radiologyReportText.isSome = true))
        nd (if isTextFile f then attachReport nd f else nd) := by
      by_cases h : isTextFile f = true
      · simp only [if_pos h]; exact attachReport_frame nd f
      · simp only [if_neg h]; exact List.forall₂_same.mpr (fun x _ => ⟨rfl, id⟩)
    exact reportFrame_trans hstep (ih _)

/-- C9: report matching attaches each text file's content and name to the
first roster record whose id is a case-sensitive substring of the
filename (the second disjunct of the source's heuristic is redundant), a
file matching no record is silently skipped with the roster unchanged,
and the operation never changes any `extractionStatus` and never clears
an attached report. -/
theorem report_matching (pre rest : List MergedRecord) (r : MergedRecord)
    (f : ReportFile)
    (hpre : ∀ q ∈ pre, reportMatch f q = false)
    (hr : reportMatch f r = true) :
    (∀ q : MergedRecord, reportMatch f q = strContains f.name q.id) ∧
    attachReport (pre ++ r :: rest) f =
      pre ++ { r with radiologyReportText := some f.content,
                      reportFilename := some f.name } :: rest ∧
    (∀ nd : List MergedRecord, (∀ q ∈ nd, reportMatch f q = false) →
        attachReport nd f = nd) ∧
    (∀ (nd : List MergedRecord) (files : List ReportFile),
        List.Forall₂ (fun a b => b.extractionStatus = a.extractionStatus ∧
            (a.radiologyReportText.isSome = true →
              b.radiologyReportText.isSome = true))
          nd (handleFolderUpload nd files)) := by
  refine ⟨?_, ?_, ?_, fun nd files => handleFolderUpload_frame files nd⟩
  · intro q
    cases h : strContains f.name q.id <;> simp [reportMatch, h]
  · induction pre with
    | nil => simp [attachReport, hr]
    | cons q pre ih =>
      have hq : reportMatch f q = false := hpre q (by simp)
      have ih2 := ih (fun x hx => hpre x (by simp [hx]))
      simp only [List.cons_append, attachReport, hq, Bool.false_eq_true,
        if_false, List.append_eq]
      rw [ih2]
  · intro nd hnd
    induction nd with
    | nil => rfl
    | cons q nd ih =>
      have hq : reportMatch f q = false := hnd q (by simp)
      simp only [attachReport, hq, Bool.false_eq_true, if_false]
      rw [ih (fun x hx => hnd x (by simp [hx]))]

/-- Witness for `report_matching`: a concrete file whose name contains
the id of the second roster record only. -/
theorem report_matching_witness :
    attachReport ([demoRec "555" none .PENDING none] ++
        demoRec "101" none .PENDING none :: []) demoFile =
      [demoRec "555" none .PENDING none] ++
        { demoRec "101" none .PENDING none with
            radiologyReportText := some demoFile.content,
            reportFilename := some demoFile.name } :: [] :=
  (report_matching [demoRec "555" none .PENDING none] []
    (demoRec "101" none .PENDING none) demoFile (by decide) (by decide)).2.1

/-- The chunks dispatched by the batch loop are exactly the consecutive
slices of the remaining queue. -/
theorem runBatchLoop_chunks (extract : String → Except String ExtractedData)
    (n total : Nat) :
    ∀ (fuel : Nat) (q : List MergedRecord) (i : Nat)
      (roster : List MergedRecord),
      (runBatchLoop extract n total fuel q i roster).chunksDispatched =
        chunkListAux n fuel q := by
  intro fuel
  induction fuel with
  | zero => intro q i roster; cases q <;> simp [runBatchLoop, chunkListAux]
  | succ fuel ih =>
    intro q i roster
    cases q with
    | nil => simp [runBatchLoop, chunkListAux]
    | cons h t => simp [runBatchLoop, chunkListAux, ih]

/-- With adequate fuel the chunks concatenate back to the queue. -/
theorem chunkListAux_join :
    ∀ (fuel : Nat) (l : List MergedRecord), l.length ≤ fuel →
      (chunkListAux 5 fuel l).flatten = l := by
  intro fuel
  induction fuel with
  | zero =>
    intro l hl
    cases l with
    | nil => simp [chunkListAux]
    | cons h t => simp at hl
  | succ fuel ih =>
    intro l hl
    cases l with
    | nil => simp [chunkListAux]
    | cons h t =>
      simp only [List.length_cons] at hl
      rw [show chunkListAux 5 (fuel + 1) (h :: t) =
        (h :: t).take 5 :: chunkListAux 5 fuel ((h :: t).drop 5) from rfl]
      rw [List.flatten_cons]
      rw [ih ((h :: t).drop 5)
        (by simp only [List.length_drop, List.length_cons]; omega)]
      exact List.take_append_drop 5 (h :: t)

/-- Every chunk is nonempty and no larger than the chunk size. -/
theorem chunkListAux_sizes :
    ∀ (fuel : Nat) (l : List MergedRecord),
      ∀ c ∈ chunkListAux 5 fuel l, c.length ≤ 5 ∧ c ≠ [] := by
  intro fuel
  induction fuel with
  | zero => intro l c hc; cases l <;> simp [chunkListAux] at hc
  | succ fuel ih =>
    intro l c hc
    cases l with
    | nil => simp [chunkListAux] at hc
    | cons h t =>
      simp only [chunkListAux, List.mem_cons] at hc
      rcases hc with hc | hc
      · subst hc
        constructor
        · simp [List.length_take]
        · simp [List.take_cons]
      · exact ih _ c hc

/-- Every chunk but the last has exactly the chunk size. -/
theorem chunkListAux_dropLast :
    ∀ (fuel : Nat) (l : List MergedRecord),
      ∀ c ∈ (chunkListAux 5 fuel l).dropLast, c.length = 5 := by
  intro fuel
  induction fuel with
  | zero => intro l c hc; cases l <;> simp [chunkListAux] at hc
  | succ fuel ih =>
    intro l c hc
    cases l with
    | nil => simp [chunkListAux] at hc
    | cons h t =>
      rw [show chunkListAux 5 (fuel + 1) (h :: t) =
        (h :: t).take 5 :: chunkListAux 5 fuel ((h :: t).drop 5) from rfl]
        at hc
      rcases hrec : chunkListAux 5 fuel ((h :: t).drop 5) with _ | ⟨rc, rcs⟩
      · rw [hrec] at hc
        simp at hc
      · have hdrop : (h :: t).drop 5 ≠ [] := by
          intro hd
          rw [hd] at hrec
          simp [chunkListAux] at hrec
        have hlen : 5 < (h :: t).length := by
          by_contra hle
          exact hdrop (List.drop_eq_nil_of_le (by omega))
        rw [hrec, List.dropLast_cons₂] at hc
        rcases List.mem_cons.mp hc with hc | hc
        · subst hc
          rw [List.length_take]
          omega
        · have htail := ih ((h :: t).drop 5) c
          rw [hrec] at htail
          exact htail hc

/-- The batch loop dispatches the full ceiling count of chunks. -/
theorem chunkListAux_length :
    ∀ (fuel : Nat) (l : List MergedRecord), l.length ≤ fuel →
      (chunkListAux 5 fuel l).length = (l.length + 4) / 5 := by
  intro fuel
  induction fuel with
  | zero =>
    intro l hl
    cases l with
    | nil => simp [chunkListAux]
    | cons h t => simp at hl
  | succ fuel ih =>
    intro l hl
    cases l with
    | nil => simp [chunkListAux]
    | cons h t =>
      simp only [List.length_cons] at hl
      rw [show chunkListAux 5 (fuel + 1) (h :: t) =
        (h :: t).take 5 :: chunkListAux 5 fuel ((h :: t).drop 5) from rfl]
      rw [List.length_cons]
      rw [ih ((h :: t).drop 5)
        (by simp only [List.length_drop, List.length_cons]; omega)]
      simp only [List.length_drop, List.length_cons]
      omega

/-- Every later progress report is at least `min total (i + 5)`. -/
theorem runBatchLoop_progress_lb
    (extract : String → Except String ExtractedData) (total : Nat) :
    ∀ (fuel : Nat) (q : List MergedRecord) (i : Nat)
      (roster : List MergedRecord),
      ∀ pr ∈ (runBatchLoop extract 5 total fuel q i roster).progress,
        min total (i + 5) ≤ pr.1 := by
  intro fuel
  induction fuel with
  | zero =>
    intro q i roster pr hpr
    cases q <;> simp [runBatchLoop] at hpr
  | succ fuel ih =>
    intro q i roster pr hpr
    cases q with
    | nil => simp [runBatchLoop] at hpr
    | cons h t =>
      simp only [runBatchLoop, List.mem_cons] at hpr
      rcases hpr with hpr | hpr
      · subst hpr; exact le_refl _
      · have := ih ((h :: t).drop 5) (i + 5) _ pr hpr
        omega

/-- Progress reports are monotonically non-decreasing. -/
theorem runBatchLoop_progress_chain
    (extract : String → Except String ExtractedData) (total : Nat) :
    ∀ (fuel : Nat) (q : List MergedRecord) (i : Nat)
      (roster : List MergedRecord),
      List.Chain' (fun a b => a.1 ≤ b.1)
        (runBatchLoop extract 5 total fuel q i roster).progress := by
  intro fuel
  induction fuel with
  | zero => intro q i roster; cases q <;> simp [runBatchLoop]
  | succ fuel ih =>
    intro q i roster
    cases q with
    | nil => simp [runBatchLoop]
    | cons h t =>
      simp only [runBatchLoop]
      rw [List.chain'_cons']
      refine ⟨?_, ih _ _ _⟩
      intro y hy
      have hmem := List.mem_of_mem_head? hy
      have := runBatchLoop_progress_lb extract total fuel
        ((h :: t).drop 5) (i + 5) _ y hmem
      omega

/-- On a nonempty queue the progress reports end with `(total, total)`
and every earlier report is strictly below the total. -/
theorem runBatchLoop_progress_last
    (extract : String → Except String ExtractedData) (total : Nat) :
    ∀ (fuel : Nat) (q : List MergedRecord) (i : Nat)
      (roster : List MergedRecord),
      q ≠ [] → q.length ≤ fuel → total = i + q.length →
      ∃ ps, (runBatchLoop extract 5 total fuel q i roster).progress =
          ps ++ [(total, total)] ∧
        ∀ pr ∈ ps, pr.1 < total ∧ pr.2 = total := by
  intro fuel
  induction fuel with
  | zero =>
    intro q i roster hne hlen htot
    cases q with
    | nil => exact absurd rfl hne
    | cons h t => simp at hlen
  | succ fuel ih =>
    intro q i roster hne hlen htot
    cases q with
    | nil => exact absurd rfl hne
    | cons h t =>
      have hunfold : (runBatchLoop extract 5 total (fuel + 1) (h :: t) i
          roster).progress =
          (min total (i + 5), total) ::
            (runBatchLoop extract 5 total fuel ((h :: t).drop 5) (i + 5)
              (applyResults roster
                (((h :: t).take 5).map (mkItemResult extract)))).progress :=
        rfl
      have hlen2 : ((h :: t).drop 5).length = (h :: t).length - 5 := by
        simp [List.length_drop]
      by_cases hdrop : (h :: t).drop 5 = []
      · have hle : (h :: t).length ≤ 5 := by
          by_contra hgt
          have hne2 : (h :: t).drop 5 ≠ [] := by
            apply List.ne_nil_of_length_pos
            rw [hlen2]
            omega
          exact hne2 hdrop
        have hq : (h :: t).length ≠ 0 := by simp
        have hmin : min total (i + 5) = total := by omega
        refine ⟨[], ?_, by simp⟩
        rw [hunfold, hdrop, hmin]
        have : (runBatchLoop extract 5 total fuel [] (i + 5)
            (applyResults roster
              (((h :: t).take 5).map (mkItemResult extract)))).progress =
            [] := by
          cases fuel <;> rfl
        rw [this]
        rfl
      · have hgt : 5 < (h :: t).length := by
          by_contra hle
          exact hdrop (List.drop_eq_nil_of_le (by omega))
        obtain ⟨ps, hps, hall⟩ := ih ((h :: t).drop 5) (i + 5)
          (applyResults roster (((h :: t).take 5).map (mkItemResult extract)))
          hdrop (by rw [hlen2]; omega) (by rw [hlen2]; omega)
        refine ⟨(min total (i + 5), total) :: ps, ?_, ?_⟩
        · rw [hunfold, hps]
          rfl
        · intro pr hpr
          rcases List.mem_cons.mp hpr with hpr | hpr
          · subst hpr
            exact ⟨by omega, rfl⟩
          · exact hall pr hpr

/-- C7: the batch runner partitions the queue into chunks of the
configured concurrency 5 (last chunk possibly smaller, all nonempty,
concatenating back to the queue); after each chunk it reports
`(itemsCompletedSoFar, totalQueueSize)`, monotonically non-decreasing,
reaching `(total, total)` exactly at the final report; and on the
12-record queue the chunks have sizes 5, 5, 2 with progress
`(5,12), (10,12), (12,12)`. -/
theorem batch_chunking_progress :
    (∀ q : List MergedRecord, (chunkList 5 q).flatten = q ∧
        (∀ c ∈ chunkList 5 q, c.length ≤ 5 ∧ c ≠ []) ∧
        (∀ c ∈ (chunkList 5 q).dropLast, c.length = 5)) ∧
    (∀ (extract : String → Except String ExtractedData)
        (roster : List MergedRecord),
        (handleBatchProcess extract roster).chunksDispatched =
          chunkList 5 (batchQueue roster)) ∧
    (∀ (extract : String → Except String ExtractedData)
        (roster : List MergedRecord), batchQueue roster ≠ [] →
        ∃ ps, (handleBatchProcess extract roster).progress =
            ps ++ [((batchQueue roster).length, (batchQueue roster).length)] ∧
          ∀ pr ∈ ps, pr.1 < (batchQueue roster).length ∧
            pr.2 = (batchQueue roster).length) ∧
    (∀ (extract : String → Except String ExtractedData)
        (roster : List MergedRecord),
        List.Chain' (fun a b => a.1 ≤ b.1)
          (handleBatchProcess extract roster).progress) ∧
    ((handleBatchProcess demoExtract demoBatchRoster).chunksDispatched.map
        (fun c => c.length) = [5, 5, 2] ∧
      (handleBatchProcess demoExtract demoBatchRoster).progress =
        [(5, 12), (10, 12), (12, 12)]) := by
  refine ⟨?_, ?_, ?_, ?_, by decide, by decide⟩
  · intro q
    exact ⟨chunkListAux_join q.length q (le_refl _),
      fun c hc => chunkListAux_sizes q.length q c hc,
      fun c hc => chunkListAux_dropLast q.length q c hc⟩
  · intro extract roster
    exact runBatchLoop_chunks extract 5 (batchQueue roster).length
      (batchQueue roster).length (batchQueue roster) 0 roster
  · intro extract roster hne
    exact runBatchLoop_progress_last extract (batchQueue roster).length
      (batchQueue roster).length (batchQueue roster) 0 roster hne
      (le_refl _) (by omega)
  · intro extract roster
    exact runBatchLoop_progress_chain extract (batchQueue roster).length
      (batchQueue roster).length (batchQueue roster) 0 roster

/-- Witness for `batch_chunking_progress` on the concrete 12-record
queue. -/
theorem batch_chunking_progress_witness :
    ∃ ps, (handleBatchProcess demoExtract demoBatchRoster).progress =
        ps ++ [(12, 12)] ∧ ∀ pr ∈ ps, pr.1 < 12 ∧ pr.2 = 12 := by
  have hlen : (batchQueue demoBatchRoster).length = 12 := by decide
  have hne : batchQueue demoBatchRoster ≠ [] := by
    intro h
    rw [h] at hlen
    simp at hlen
  have h := batch_chunking_progress.2.2.1 demoExtract demoBatchRoster hne
  rw [hlen] at h
  exact h

/-- C8 (code evaluation): the batch loop of `handleBatchProcess` contains
no cancellation check — for every roster it dispatches the full ceiling
count of chunks, and on a ten-record queue the second chunk is dispatched
unconditionally, even after a cancellation request made while the first
chunk was in flight (the `isBatchProcessing` flag is never read inside
the loop). -/
theorem batch_ignores_cancellation :
    (∀ (extract : String → Except String ExtractedData)
        (roster : List MergedRecord),
        ((handleBatchProcess extract roster).chunksDispatched).length =
          ((batchQueue roster).length + 4) / 5) ∧
    ((handleBatchProcess demoExtract demoTenRoster).chunksDispatched.map
        (fun c => c.length) = [5, 5]) := by
  refine ⟨?_, by decide⟩
  intro extract roster
  show (runBatchLoop extract 5 (batchQueue roster).length
      (batchQueue roster).length (batchQueue roster) 0
      roster).chunksDispatched.length = _
  rw [runBatchLoop_chunks]
  exact chunkListAux_length (batchQueue roster).length (batchQueue roster)
    (le_refl _)

/-- Lookup distributes over append of column lists. -/
theorem metaLookup_append (a b : List (String × String)) (k : String) :
    metaLookup (a ++ b) k =
      match metaLookup a k with
      | some v => some v
      | none => metaLookup b k := by
  induction a with
  | nil => simp [metaLookup]
  | cons kv rest ih =>
    by_cases h : kv.1 = k
    · simp [metaLookup, h]
    · simp [metaLookup, h, ih]

/-- An overwritten entry keeps its key; its value is the incoming value
when present. -/
theorem owUpdate_eq (i : List (String × String)) (kv : String × String) :
    owUpdate i kv = (kv.1, (metaLookup i kv.1).getD kv.2) := by
  cases h : metaLookup i kv.1 <;> simp [owUpdate, h]

/-- Lookup in the overwritten existing segment. -/
theorem metaLookup_map_ow (i e : List (String × String)) (k : String) :
    metaLookup (e.map (owUpdate i)) k =
      match metaLookup e k with
      | some v => some ((metaLookup i k).getD v)
      | none => none := by
  induction e with
  | nil => simp [metaLookup]
  | cons kv rest ih =>
    by_cases h : kv.1 = k
    · subst h
      simp [owUpdate_eq, metaLookup]
    · simp [owUpdate_eq, metaLookup, h, ih]

/-- Lookup through a filter whose predicate depends only on the key. -/
theorem metaLookup_filter_key (p : String → Bool)
    (l : List (String × String)) (k : String) :
    metaLookup (l.filter (fun kv => p kv.1)) k =
      if p k then metaLookup l k else none := by
  induction l with
  | nil => simp [metaLookup]
  | cons kv rest ih =>
    by_cases hk : kv.1 = k
    · subst hk
      by_cases hp : p kv.1 <;>
        simp [List.filter_cons, hp, metaLookup, ih]
    · by_cases hp : p kv.1 <;>
        simp [List.filter_cons, hp, metaLookup, hk, ih]

/-- Lookup in a merged column list: incoming values win on shared keys,
existing values survive on keys the incoming row lacks, incoming-only
keys are found in the appended segment. -/
theorem metaLookup_mergeMeta (e i : List (String × String)) (k : String) :
    metaLookup (mergeMeta e i) k =
      match metaLookup e k with
      | some v => some ((metaLookup i k).getD v)
      | none => metaLookup i k := by
  unfold mergeMeta
  rw [metaLookup_append, metaLookup_map_ow,
    metaLookup_filter_key (fun s => (metaLookup e s).isNone)]
  cases he : metaLookup e k <;> simp [he]

/-- C4: for an existing roster record and an incoming cohort row with the
same id, the merged record keeps `extractedData`, `extractionStatus` and
`extractionError` unchanged, keeps `radiologyReportText` and
`reportFilename` unless the incoming row supplies a truthy value for that
field, and every metadata key supplied by the incoming row overwrites
while unsupplied keys keep their prior value. -/
theorem cohort_merge_frame (pre rest : List MergedRecord)
    (ex : MergedRecord) (inc : PatientRecord)
    (hpre : ∀ q ∈ pre, q.id ≠ inc.id) (hex : ex.id = inc.id) :
    reconcileOne (pre ++ ex :: rest) inc =
        pre ++ mergeRecord ex inc :: rest ∧
      (mergeRecord ex inc).extractedData = ex.extractedData ∧
      (mergeRecord ex inc).extractionStatus = ex.extractionStatus ∧
      (mergeRecord ex inc).extractionError = ex.extractionError ∧
      (truthy inc.radiologyReportText = false →
        (mergeRecord ex inc).radiologyReportText =
          ex.radiologyReportText) ∧
      (truthy inc.radiologyReportText = true →
        (mergeRecord ex inc).radiologyReportText =
          inc.radiologyReportText) ∧
      (truthy inc.reportFilename = false →
        (mergeRecord ex inc).reportFilename = ex.reportFilename) ∧
      (truthy inc.reportFilename = true →
        (mergeRecord ex inc).reportFilename = inc.reportFilename) ∧
      (∀ k v, metaLookup inc.meta k = some v →
        metaLookup (mergeRecord ex inc).meta k = some v) ∧
      (∀ k, metaLookup inc.meta k = none →
        metaLookup (mergeRecord ex inc).meta k = metaLookup ex.meta k) := by
  refine ⟨?_, rfl, rfl, rfl, ?_, ?_, ?_, ?_, ?_, ?_⟩
  · induction pre with
    | nil => simp [reconcileOne, hex]
    | cons q pre ih =>
      have hq : q.id ≠ inc.id := hpre q (by simp)
      have ih2 := ih (fun x hx => hpre x (by simp [hx]))
      simp only [List.cons_append, reconcileOne, if_neg hq, List.append_eq]
      rw [ih2]
  · intro h; simp [mergeRecord, jsOr, h]
  · intro h; simp [mergeRecord, jsOr, h]
  · intro h; simp [mergeRecord, jsOr, h]
  · intro h; simp [mergeRecord, jsOr, h]
  · intro k v h
    show metaLookup (mergeMeta ex.meta inc.meta) k = some v
    rw [metaLookup_mergeMeta]
    cases he : metaLookup ex.meta k <;> simp [h]
  · intro k h
    show metaLookup (mergeMeta ex.meta inc.meta) k = metaLookup ex.meta k
    rw [metaLookup_mergeMeta]
    cases he : metaLookup ex.meta k <;> simp [h, he]

/-- Witness for `cohort_merge_frame` at a concrete record and incoming
row. -/
theorem cohort_merge_frame_witness :
    reconcileOne
        ([] ++ demoRec "101" (some "prior report") .REVIEWED
          (some EMPTY_EXTRACTION) :: []) demoIncomingA =
      [] ++ mergeRecord
          (demoRec "101" (some "prior report") .REVIEWED
            (some EMPTY_EXTRACTION)) demoIncomingA :: [] :=
  (cohort_merge_frame [] []
    (demoRec "101" (some "prior report") .REVIEWED (some EMPTY_EXTRACTION))
    demoIncomingA (by simp) (by decide)).1

/-- The per-record transition keeps the record's id. -/
theorem applyOutcome_id (p : MergedRecord)
    (o : Except String ExtractedData) : (applyOutcome p o).id = p.id := by
  cases o <;> rfl

/-- One bulk-write application keeps the roster's id column. -/
theorem applyResult_idsOf (nd : List MergedRecord) (res : ItemResult) :
    idsOf (applyResult nd res) = idsOf nd := by
  induction nd with
  | nil => rfl
  | cons p rest ih =>
    by_cases h : p.id = res.id
    · simp [applyResult, h, idsOf, applyOutcome_id]
    · simp only [applyResult, if_neg h, idsOf, List.map_cons]
      rw [show List.map MergedRecord.id (applyResult rest res) =
        idsOf (applyResult rest res) from rfl, ih]
      rfl

/-- Finding a record with a distinct id at the head. -/
theorem findRec_cons_ne (p : MergedRecord) (rest : List MergedRecord)
    (x : String) (h : p.id ≠ x) : findRec (p :: rest) x = findRec rest x := by
  unfold findRec
  rw [List.find?_cons_of_neg]
  simp [h]

/-- Finding a record with a matching id at the head. -/
theorem findRec_cons_eq (p : MergedRecord) (rest : List MergedRecord)
    (x : String) (h : p.id = x) : findRec (p :: rest) x = some p := by
  unfold findRec
  rw [List.find?_cons_of_pos]
  simp [h]

/-- One bulk-write application leaves records with other ids findable
unchanged. -/
theorem applyResult_findRec_ne (nd : List MergedRecord) (res : ItemResult)
    (x : String) (hx : x ≠ res.id) :
    findRec (applyResult nd res) x = findRec nd x := by
  induction nd with
  | nil => rfl
  | cons p rest ih =>
    by_cases h : p.id = res.id
    · have hpx : p.id ≠ x := by rw [h]; exact fun he => hx he.symm
      rw [show applyResult (p :: rest) res =
        applyOutcome p res.outcome :: rest from by simp [applyResult, h]]
      rw [findRec_cons_ne _ _ _ (by rw [applyOutcome_id]; exact hpx),
        findRec_cons_ne _ _ _ hpx]
    · rw [show applyResult (p :: rest) res =
        p :: applyResult rest res from by simp [applyResult, h]]
      by_cases hpx : p.id = x
      · rw [findRec_cons_eq _ _ _ hpx, findRec_cons_eq _ _ _ hpx]
      · rw [findRec_cons_ne _ _ _ hpx, findRec_cons_ne _ _ _ hpx, ih]

/-- One bulk-write application preserves the ledger invariant, provided
the targeted record has no extracted data yet. -/
theorem applyResult_allGood (nd : List MergedRecord) (res : ItemResult)
    (hg : allGood nd)
    (hn : ∀ r, findRec nd res.id = some r → r.extractedData = none) :
    allGood (applyResult nd res) := by
  induction nd with
  | nil => exact hg
  | cons p rest ih =>
    by_cases h : p.id = res.id
    · intro q hq
      rw [show applyResult (p :: rest) res =
        applyOutcome p res.outcome :: rest from by simp [applyResult, h]]
        at hq
      rcases List.mem_cons.mp hq with hq2 | hq2
      · subst hq2
        rcases ho : res.outcome with m | d
        · have hp : p.extractedData = none :=
            hn p (findRec_cons_eq p rest res.id h)
          simp [applyOutcome, goodRec, hp]
        · simp [applyOutcome, goodRec]
      · exact hg q (by simp [hq2])
    · intro q hq
      rw [show applyResult (p :: rest) res =
        p :: applyResult rest res from by simp [applyResult, h]] at hq
      rcases List.mem_cons.mp hq with hq2 | hq2
      · subst hq2; exact hg _ (by simp)
      · refine ih (fun x hx => hg x (by simp [hx])) ?_ q hq2
        intro r hr
        exact hn r (by rw [findRec_cons_ne _ _ _ h]; exact hr)

/-- A whole bulk write preserves the ledger invariant when the applied
results carry pairwise distinct ids whose current records have no
extracted data. -/
theorem applyResults_allGood (ress : List ItemResult) :
    ∀ (nd : List MergedRecord), allGood nd →
      (ress.map ItemResult.id).Nodup →
      (∀ res ∈ ress, ∀ r, findRec nd res.id = some r →
        r.extractedData = none) →
      allGood (applyResults nd ress) := by
  induction ress with
  | nil => intro nd hg _ _; exact hg
  | cons res rs ih =>
    intro nd hg hids hn
    show allGood (applyResults (applyResult nd res) rs)
    refine ih (applyResult nd res)
      (applyResult_allGood nd res hg (hn res (by simp)))
      (List.nodup_cons.mp hids).2 ?_
    intro res2 hres2 r hr
    have hne : res2.id ≠ res.id := by
      intro he
      exact (List.nodup_cons.mp hids).1
        (he ▸ List.mem_map_of_mem ItemResult.id hres2)
    rw [applyResult_findRec_ne nd res res2.id hne] at hr
    exact hn res2 (by simp [hres2]) r hr

/-- A whole bulk write keeps the roster's id column. -/
theorem applyResults_idsOf (ress : List ItemResult) :
    ∀ nd : List MergedRecord, idsOf (applyResults nd ress) = idsOf nd := by
  induction ress with
  | nil => intro nd; rfl
  | cons res rs ih =>
    intro nd
    show idsOf (applyResults (applyResult nd res) rs) = idsOf nd
    rw [ih, applyResult_idsOf]

/-- The final roster of the batch loop is the bulk application of every
queue item's settled result. -/
theorem runBatchLoop_final (extract : String → Except String ExtractedData)
    (total : Nat) :
    ∀ (fuel : Nat) (q : List MergedRecord) (i : Nat)
      (roster : List MergedRecord), q.length ≤ fuel →
      (runBatchLoop extract 5 total fuel q i roster).final =
        applyResults roster (q.map (mkItemResult extract)) := by
  intro fuel
  induction fuel with
  | zero =>
    intro q i roster hlen
    cases q with
    | nil => rfl
    | cons h t => simp at hlen
  | succ fuel ih =>
    intro q i roster hlen
    cases q with
    | nil => rfl
    | cons h t =>
      show (runBatchLoop extract 5 total fuel ((h :: t).drop 5) (i + 5)
          (applyResults roster
            (((h :: t).take 5).map (mkItemResult extract)))).final = _
      rw [ih ((h :: t).drop 5) (i + 5) _
        (by simp only [List.length_drop, List.length_cons];
            simp only [List.length_cons] at hlen; omega)]
      unfold applyResults
      rw [← List.foldl_append, ← List.map_append, List.take_append_drop]

/-- With pairwise distinct roster ids, `findIndex` on a member's id finds
that member. -/
theorem findRec_mem_nodup (nd : List MergedRecord)
    (hnd : (idsOf nd).Nodup) (p : MergedRecord) (hp : p ∈ nd) :
    findRec nd p.id = some p := by
  induction nd with
  | nil => cases hp
  | cons q rest ih =>
    rcases List.mem_cons.mp hp with hq | hq
    · subst hq
      exact findRec_cons_eq p rest p.id rfl
    · have hqid : q.id ≠ p.id := by
        intro he
        have : p.id ∈ idsOf rest := List.mem_map_of_mem MergedRecord.id hq
        have hcons := List.nodup_cons.mp (show (q.id :: idsOf rest).Nodup
          from hnd)
        exact hcons.1 (he ▸ this)
      rw [findRec_cons_ne _ _ _ hqid]
      exact ih (List.nodup_cons.mp (show (q.id :: idsOf rest).Nodup
        from hnd)).2 hq

/-- An eligible record has status `PENDING` or `ERROR`. -/
theorem eligible_status (p : MergedRecord) (he : eligible p = true) :
    p.extractionStatus = .PENDING ∨ p.extractionStatus = .ERROR := by
  simp only [eligible, Bool.and_eq_true, Bool.or_eq_true, beq_iff_eq] at he
  exact he.2

/-- A record satisfying the invariant with status `PENDING` or `ERROR`
carries no extracted data. -/
theorem goodRec_data_none (p : MergedRecord) (hg : goodRec p)
    (hs : p.extractionStatus = .PENDING ∨ p.extractionStatus = .ERROR) :
    p.extractedData = none := by
  cases hd : p.extractedData with
  | none => rfl
  | some d =>
    exfalso
    have := hg.mp (by simp [hd])
    rcases hs with hs | hs <;> rcases this with h | h <;> simp [hs] at h

/-- A batch run preserves the ledger invariant and the id column. -/
theorem handleBatchProcess_inv
    (extract : String → Except String ExtractedData)
    (roster : List MergedRecord) (hnd : (idsOf roster).Nodup)
    (hg : allGood roster) :
    allGood (handleBatchProcess extract roster).final ∧
      idsOf (handleBatchProcess extract roster).final = idsOf roster := by
  have hfin : (handleBatchProcess extract roster).final =
      applyResults roster ((batchQueue roster).map (mkItemResult extract)) :=
    runBatchLoop_final extract (batchQueue roster).length
      (batchQueue roster).length (batchQueue roster) 0 roster (le_refl _)
  rw [hfin]
  refine ⟨?_, applyResults_idsOf _ roster⟩
  refine applyResults_allGood _ roster hg ?_ ?_
  · have hmap : ((batchQueue roster).map (mkItemResult extract)).map
        ItemResult.id = (batchQueue roster).map MergedRecord.id := by
      simp only [List.map_map]
      rfl
    rw [hmap]
    exact ((List.filter_sublist roster).map MergedRecord.id).nodup hnd
  · intro res hres r hr
    obtain ⟨p, hp, hpe⟩ := List.mem_map.mp hres
    have hmem := List.mem_filter.mp hp
    have hfind : findRec roster p.id = some p :=
      findRec_mem_nodup roster hnd p hmem.1
    rw [← hpe] at hr
    rw [show (mkItemResult extract p).id = p.id from rfl] at hr
    rw [hfind] at hr
    injection hr with hr
    subst hr
    exact goodRec_data_none p (hg p hmem.1) (eligible_status p hmem.2)

/-- The id column after one upsert: unchanged on an update, the new id
appended on an insert. -/
theorem reconcileOne_idsOf (nd : List MergedRecord) (inc : PatientRecord) :
    idsOf (reconcileOne nd inc) =
      if nd.any (fun p => p.id == inc.id) then idsOf nd
      else idsOf nd ++ [inc.id] := by
  induction nd with
  | nil => simp [reconcileOne, idsOf, insertRecord]
  | cons p rest ih =>
    by_cases h : p.id = inc.id
    · simp [reconcileOne, h, idsOf, mergeRecord]
    · rw [show reconcileOne (p :: rest) inc = p :: reconcileOne rest inc
        from by simp [reconcileOne, h]]
      simp only [idsOf, List.map_cons, List.any_cons]
      rw [show List.map MergedRecord.id (reconcileOne rest inc) =
        idsOf (reconcileOne rest inc) from rfl, ih]
      have hbeq : (p.id == inc.id) = false := by simp [h]
      rw [hbeq]
      by_cases hany : rest.any (fun p => p.id == inc.id) <;>
        simp [hany, idsOf]

/-- One upsert preserves the ledger invariant. -/
theorem reconcileOne_allGood (nd : List MergedRecord) (inc : PatientRecord)
    (hg : allGood nd) : allGood (reconcileOne nd inc) := by
  induction nd with
  | nil =>
    intro q hq
    simp only [reconcileOne, List.mem_singleton] at hq
    subst hq
    simp [goodRec, insertRecord]
  | cons p rest ih =>
    by_cases h : p.id = inc.id
    · intro q hq
      rw [show reconcileOne (p :: rest) inc = mergeRecord p inc :: rest
        from by simp [reconcileOne, h]] at hq
      rcases List.mem_cons.mp hq with hq2 | hq2
      · subst hq2
        have := hg p (by simp)
        simpa [goodRec, mergeRecord] using this
      · exact hg q (by simp [hq2])
    · intro q hq
      rw [show reconcileOne (p :: rest) inc = p :: reconcileOne rest inc
        from by simp [reconcileOne, h]] at hq
      rcases List.mem_cons.mp hq with hq2 | hq2
      · subst hq2; exact hg _ (by simp)
      · exact ih (fun x hx => hg x (by simp [hx])) q hq2

/-- One upsert preserves distinctness of the id column. -/
theorem reconcileOne_nodup (nd : List MergedRecord) (inc : PatientRecord)
    (hnd : (idsOf nd).Nodup) : (idsOf (reconcileOne nd inc)).Nodup := by
  rw [reconcileOne_idsOf]
  by_cases hany : nd.any (fun p => p.id == inc.id)
  · simp only [if_pos hany]
    exact hnd
  · simp only [if_neg hany]
    have hnotin : inc.id ∉ idsOf nd := by
      intro hmem
      obtain ⟨p, hp, hpid⟩ := List.mem_map.mp hmem
      exact hany (List.any_eq_true.mpr ⟨p, hp, by simp [hpid]⟩)
    simp [List.nodup_append, hnd, hnotin]

/-- A cohort import preserves the ledger invariant and id distinctness. -/
theorem handleDataLoaded_inv (B : List PatientRecord) :
    ∀ R : List MergedRecord, (idsOf R).Nodup ∧ allGood R →
      (idsOf (handleDataLoaded R B)).Nodup ∧
        allGood (handleDataLoaded R B) := by
  induction B with
  | nil => intro R h; exact h
  | cons b B ih =>
    intro R h
    show (idsOf (handleDataLoaded (reconcileOne R b) B)).Nodup ∧ _
    exact ih (reconcileOne R b)
      ⟨reconcileOne_nodup R b h.1, reconcileOne_allGood R b h.2⟩

/-- Attaching a file keeps the id column and the ledger invariant. -/
theorem attachReport_inv (nd : List MergedRecord) (f : ReportFile) :
    idsOf (attachReport nd f) = idsOf nd ∧
      (allGood nd → allGood (attachReport nd f)) := by
  induction nd with
  | nil => exact ⟨rfl, fun h => h⟩
  | cons r rest ih =>
    by_cases h : reportMatch f r = true
    · rw [show attachReport (r :: rest) f =
        { r with radiologyReportText := some f.content,
                 reportFilename := some f.name } :: rest
        from by simp [attachReport, h]]
      refine ⟨by simp [idsOf], ?_⟩
      intro hg q hq
      rcases List.mem_cons.mp hq with hq2 | hq2
      · subst hq2
        have := hg r (by simp)
        simpa [goodRec] using this
      · exact hg q (by simp [hq2])
    · rw [show attachReport (r :: rest) f = r :: attachReport rest f
        from by simp [attachReport, h]]
      refine ⟨by simp [idsOf]; exact ih.1, ?_⟩
      intro hg q hq
      rcases List.mem_cons.mp hq with hq2 | hq2
      · subst hq2; exact hg _ (by simp)
      · exact ih.2 (fun x hx => hg x (by simp [hx])) q hq2

/-- A folder upload preserves the ledger invariant and id distinctness. -/
theorem handleFolderUpload_inv (files : List ReportFile) :
    ∀ nd : List MergedRecord, (idsOf nd).Nodup ∧ allGood nd →
      (idsOf (handleFolderUpload nd files)).Nodup ∧
        allGood (handleFolderUpload nd files) := by
  induction files with
  | nil => intro nd h; exact h
  | cons f fs ih =>
    intro nd h
    show (idsOf (handleFolderUpload
      (if isTextFile f then attachReport nd f else nd) fs)).Nodup ∧ _
    apply ih
    by_cases hf : isTextFile f = true
    · rw [if_pos hf]
      exact ⟨(attachReport_inv nd f).1 ▸ h.1, (attachReport_inv nd f).2 h.2⟩
    · rw [if_neg hf]
      exact h

/-- The single-record review write preserves the ledger invariant and id
distinctness: the replacement record always carries data with status
`REVIEWED`. -/
theorem handleUpdatePatient_inv (R : List MergedRecord) (u : MergedRecord)
    (hu : goodRec u) (h : (idsOf R).Nodup ∧ allGood R) :
    (idsOf (handleUpdatePatient R u)).Nodup ∧
      allGood (handleUpdatePatient R u) := by
  constructor
  · have hids : idsOf (handleUpdatePatient R u) = idsOf R := by
      simp only [handleUpdatePatient, idsOf, List.map_map]
      apply List.map_congr_left
      intro p _
      by_cases hp : p.id = u.id
      · simp [Function.comp, hp]
      · simp [Function.comp, hp]
    rw [hids]
    exact h.1
  · intro q hq
    simp only [handleUpdatePatient, List.mem_map] at hq
    obtain ⟨p, hp, hpq⟩ := hq
    by_cases hpid : p.id = u.id
    · rw [if_pos hpid] at hpq
      subst hpq
      exact hu
    · rw [if_neg hpid] at hpq
      subst hpq
      exact h.2 p hp

/-- C3: in every roster state reachable through the sanctioned operations
(cohort import/merge, report matching, batch extraction, single
extraction success or manual edit), every record has `extractedData`
defined if and only if its `extractionStatus` is `EXTRACTED` or
`REVIEWED`. -/
theorem ledger_invariant (R : List MergedRecord) (h : Reachable R) :
    ∀ p ∈ R, p.extractedData.isSome = true ↔
      (p.extractionStatus = .EXTRACTED ∨ p.extractionStatus = .REVIEWED) := by
  have main : (idsOf R).Nodup ∧ allGood R := by
    induction h with
    | empty => exact ⟨List.nodup_nil, fun p hp => absurd hp (by simp)⟩
    | load R B _ ih => exact handleDataLoaded_inv B R ih
    | upload R files _ ih => exact handleFolderUpload_inv files R ih
    | batch R extract _ ih =>
      have := handleBatchProcess_inv extract R ih.1 ih.2
      exact ⟨this.2 ▸ ih.1, this.1⟩
    | review R pat text d _ ih =>
      exact handleUpdatePatient_inv R _ (by simp [goodRec]) ih
  exact fun p hp => main.2 p hp

/-- Witness for `ledger_invariant`: a concrete record of a concretely
reached roster satisfies the invariant. -/
theorem ledger_invariant_witness :
    (insertRecord demoIncomingA).extractedData.isSome = true ↔
      ((insertRecord demoIncomingA).extractionStatus = .EXTRACTED ∨
        (insertRecord demoIncomingA).extractionStatus = .REVIEWED) :=
  ledger_invariant (handleDataLoaded [] [demoIncomingA, demoIncomingB])
    (Reachable.load [] [demoIncomingA, demoIncomingB] Reachable.empty)
    (insertRecord demoIncomingA)
    (show insertRecord demoIncomingA ∈
        [insertRecord demoIncomingA, insertRecord demoIncomingB] from
      List.mem_cons_self _ _)

/-- An overwritten entry keeps its key (projection form). -/
theorem owUpdate_fst (i : List (String × String)) (kv : String × String) :
    (owUpdate i kv).1 = kv.1 := by
  rw [owUpdate_eq]

/-- Overwriting twice composes like overwriting with the merged incoming
list. -/
theorem owUpdate_owUpdate (b c : List (String × String))
    (kv : String × String) :
    owUpdate c (owUpdate b kv) = owUpdate (mergeMeta b c) kv := by
  simp only [owUpdate_eq, metaLookup_mergeMeta]
  cases hb : metaLookup b kv.1 <;> cases hc : metaLookup c kv.1 <;>
    simp [hb, hc]

/-- A key-predicate filter commutes with the overwrite map. -/
theorem filter_map_ow (c : List (String × String)) (p : String → Bool) :
    ∀ b : List (String × String),
      (b.filter (fun kv => p kv.1)).map (owUpdate c) =
        (b.map (owUpdate c)).filter (fun kv => p kv.1) := by
  intro b
  induction b with
  | nil => rfl
  | cons kv rest ih =>
    by_cases hp : p kv.1 = true <;>
      simp [List.filter_cons, hp, owUpdate_fst, ih]

/-- Absence of a key in a merged column list. -/
theorem isNone_mergeMeta (a b : List (String × String)) (k : String) :
    (metaLookup (mergeMeta a b) k).isNone =
      ((metaLookup a k).isNone && (metaLookup b k).isNone) := by
  rw [metaLookup_mergeMeta]
  cases metaLookup a k <;> cases metaLookup b k <;> simp

/-- The object spread merge of dynamic columns is associative. -/
theorem mergeMeta_assoc (a b c : List (String × String)) :
    mergeMeta (mergeMeta a b) c = mergeMeta a (mergeMeta b c) := by
  calc mergeMeta (mergeMeta a b) c
      = (mergeMeta a b).map (owUpdate c) ++
          c.filter (fun kv => (metaLookup (mergeMeta a b) kv.1).isNone) :=
        rfl
    _ = (mergeMeta a b).map (owUpdate c) ++
          c.filter (fun kv => (metaLookup a kv.1).isNone &&
            (metaLookup b kv.1).isNone) := by
        congr 1
        apply List.filter_congr
        intro kv _
        rw [isNone_mergeMeta]
    _ = (a.map (owUpdate b)).map (owUpdate c) ++
          ((b.filter (fun kv => (metaLookup a kv.1).isNone)).map
            (owUpdate c) ++
          c.filter (fun kv => (metaLookup a kv.1).isNone &&
            (metaLookup b kv.1).isNone)) := by
        rw [show mergeMeta a b = a.map (owUpdate b) ++
          b.filter (fun kv => (metaLookup a kv.1).isNone) from rfl]
        rw [List.map_append, List.append_assoc]
    _ = a.map (owUpdate (mergeMeta b c)) ++
          ((b.map (owUpdate c)).filter
            (fun kv => (metaLookup a kv.1).isNone) ++
          ((c.filter (fun kv => (metaLookup b kv.1).isNone)).filter
            (fun kv => (metaLookup a kv.1).isNone))) := by
        congr 1
        · rw [List.map_map]
          apply List.map_congr_left
          intro kv _
          simp only [Function.comp_apply]
          exact owUpdate_owUpdate b c kv
        congr 1
        · exact filter_map_ow c (fun s => (metaLookup a s).isNone) b
        · rw [List.filter_filter]
    _ = a.map (owUpdate (mergeMeta b c)) ++
          (mergeMeta b c).filter (fun kv => (metaLookup a kv.1).isNone) := by
        congr 1
        rw [show mergeMeta b c = b.map (owUpdate c) ++
          c.filter (fun kv => (metaLookup b kv.1).isNone) from rfl]
        rw [List.filter_append]
    _ = mergeMeta a (mergeMeta b c) := rfl

/-- The overwrite map keeps the key column. -/
theorem metaKeys_map_ow (i m : List (String × String)) :
    (m.map (owUpdate i)).map Prod.fst = m.map Prod.fst := by
  rw [List.map_map]
  apply List.map_congr_left
  intro kv _
  simp only [Function.comp_apply]
  exact owUpdate_fst i kv

/-- A key is present exactly when lookup succeeds. -/
theorem metaLookup_isSome_iff (m : List (String × String)) (k : String) :
    (metaLookup m k).isSome = true ↔ k ∈ metaKeys m := by
  induction m with
  | nil => simp [metaLookup, metaKeys]
  | cons kv rest ih =>
    by_cases h : kv.1 = k
    · simp [metaLookup, metaKeys, h]
    · simp [metaLookup, metaKeys, h, ih]
      exact fun he => absurd he.symm h

/-- With distinct keys, lookup on a member's key returns its value. -/
theorem metaLookup_mem_nodup (m : List (String × String))
    (h : (metaKeys m).Nodup) (kv : String × String) (hm : kv ∈ m) :
    metaLookup m kv.1 = some kv.2 := by
  induction m with
  | nil => cases hm
  | cons hd tl ih =>
    have hcons : hd.1 ∉ metaKeys tl ∧ (metaKeys tl).Nodup := by
      have : (hd.1 :: metaKeys tl).Nodup := h
      exact List.nodup_cons.mp this
    rcases List.mem_cons.mp hm with he | he
    · subst he
      simp [metaLookup]
    · have hne : hd.1 ≠ kv.1 := by
        intro heq
        exact hcons.1 (heq ▸ List.mem_map_of_mem Prod.fst he)
      rw [show metaLookup (hd :: tl) kv.1 = metaLookup tl kv.1 from by
        simp [metaLookup, hne]]
      exact ih hcons.2 he

/-- Merging a duplicate-key-free column list with itself is the identity. -/
theorem mergeMeta_self (m : List (String × String))
    (h : (metaKeys m).Nodup) : mergeMeta m m = m := by
  unfold mergeMeta
  have h1 : m.map (owUpdate m) = m := by
    have hpt : ∀ kv ∈ m, owUpdate m kv = kv := by
      intro kv hm
      rw [owUpdate_eq, metaLookup_mem_nodup m h kv hm]
      simp
    rw [List.map_congr_left hpt]
    simp
  have h2 : m.filter (fun kv => (metaLookup m kv.1).isNone) = [] := by
    apply List.filter_eq_nil_iff.mpr
    intro kv hm
    rw [metaLookup_mem_nodup m h kv hm]
    simp
  rw [h1, h2, List.append_nil]

/-- The key column of a merged column list. -/
theorem metaKeys_mergeMeta (a b : List (String × String)) :
    metaKeys (mergeMeta a b) = metaKeys a ++
      metaKeys (b.filter (fun kv => (metaLookup a kv.1).isNone)) := by
  show ((a.map (owUpdate b) ++ _).map Prod.fst) = _
  rw [List.map_append]
  congr 1
  exact metaKeys_map_ow b a

/-- Merging preserves distinctness of keys. -/
theorem mergeMeta_nodup (a b : List (String × String))
    (ha : (metaKeys a).Nodup) (hb : (metaKeys b).Nodup) :
    (metaKeys (mergeMeta a b)).Nodup := by
  rw [metaKeys_mergeMeta]
  apply List.Nodup.append ha
  · exact ((List.filter_sublist b).map Prod.fst).nodup hb
  · intro k hka hkb
    obtain ⟨kv, hkv, hk⟩ := List.mem_map.mp hkb
    have hf := (List.mem_filter.mp hkv).2
    have hs : (metaLookup a k).isSome = true :=
      (metaLookup_isSome_iff a k).mpr hka
    rw [← hk] at hs
    rcases hlook : metaLookup a kv.1 with _ | v
    · rw [hlook] at hs; simp at hs
    · rw [hlook] at hf; simp at hf

/-- The UPDATE branch takes the incoming row's id. -/
theorem mergeRecord_id (e : MergedRecord) (i : PatientRecord) :
    (mergeRecord e i).id = i.id := rfl

/-- Truthy-or is idempotent. -/
theorem jsOr_self (a : Option String) : jsOr a a = a := by
  unfold jsOr
  split <;> rfl

/-- Truthy-or is associative. -/
theorem jsOr_assoc (a b c : Option String) :
    jsOr (jsOr a b) c = jsOr a (jsOr b c) := by
  unfold jsOr
  by_cases h : truthy a = true <;> simp [h]

/-- Applying two incoming rows in sequence equals applying their
composition once. -/
theorem mergeRecord_mergeInc (e : MergedRecord) (y d : PatientRecord) :
    mergeRecord (mergeRecord e y) d = mergeRecord e (mergeInc y d) := by
  simp [mergeRecord, mergeInc, mergeMeta_assoc, jsOr_assoc]

/-- Composition of incoming rows is associative. -/
theorem mergeInc_assoc (a b c : PatientRecord) :
    mergeInc (mergeInc a b) c = mergeInc a (mergeInc b c) := by
  simp [mergeInc, mergeMeta_assoc, jsOr_assoc]

/-- Composition preserves duplicate-free keys. -/
theorem rowNodup_mergeInc (y d : PatientRecord) (hy : rowNodup y)
    (hd : rowNodup d) : rowNodup (mergeInc y d) :=
  mergeMeta_nodup y.meta d.meta hy hd

/-- A duplicate-key-free incoming row composed with itself is itself. -/
theorem mergeInc_self (d : PatientRecord) (hd : rowNodup d) :
    mergeInc d d = d := by
  cases d with
  | mk i m rt fn =>
    simp [mergeInc, mergeMeta_self m hd, jsOr_self]

/-- Re-applying the same duplicate-key-free incoming row changes nothing. -/
theorem mergeRecord_absorb_self (e : MergedRecord) (d : PatientRecord)
    (hd : rowNodup d) : mergeRecord (mergeRecord e d) d = mergeRecord e d := by
  rw [mergeRecord_mergeInc, mergeInc_self d hd]

/-- Updating a freshly inserted record with its own row changes nothing. -/
theorem insertRecord_absorb (b : PatientRecord) (hb : rowNodup b) :
    mergeRecord (insertRecord b) b = insertRecord b := by
  cases b with
  | mk i m rt fn =>
    simp [mergeRecord, insertRecord, mergeMeta_self m hb, jsOr_self]

/-- An absorbed row stays absorbed after a further row is applied. -/
theorem mergeRecord_absorb_step (e : MergedRecord) (y d : PatientRecord)
    (hey : mergeRecord e y = e) (hy : rowNodup y) (hd : rowNodup d) :
    mergeRecord (mergeRecord e d) (mergeInc y d) = mergeRecord e d := by
  calc mergeRecord (mergeRecord e d) (mergeInc y d)
      = mergeRecord (mergeRecord (mergeRecord e y) d) (mergeInc y d) := by
        rw [hey]
    _ = mergeRecord (mergeRecord e (mergeInc y d)) (mergeInc y d) := by
        rw [mergeRecord_mergeInc e y d]
    _ = mergeRecord e (mergeInc y d) :=
        mergeRecord_absorb_self e (mergeInc y d) (rowNodup_mergeInc y d hy hd)
    _ = mergeRecord (mergeRecord e y) d := (mergeRecord_mergeInc e y d).symm
    _ = mergeRecord e d := by rw [hey]

/-- Re-applying an absorbed row after a whole run of rows changes
nothing. -/
theorem foldMergeRec_absorb :
    ∀ (L : List PatientRecord) (e : MergedRecord) (y : PatientRecord),
      (∀ d ∈ L, rowNodup d) → rowNodup y → mergeRecord e y = e →
      foldMergeRec (mergeRecord (foldMergeRec e L) y) L = foldMergeRec e L := by
  intro L
  induction L with
  | nil => intro e y _ _ hey; exact hey
  | cons d ds ih =>
    intro e y hL hy hey
    show foldMergeRec
        (mergeRecord (mergeRecord (foldMergeRec (mergeRecord e d) ds) y) d)
        ds =
      foldMergeRec (mergeRecord e d) ds
    rw [mergeRecord_mergeInc]
    exact ih (mergeRecord e d) (mergeInc y d)
      (fun x hx => hL x (by simp [hx]))
      (rowNodup_mergeInc y d hy (hL d (by simp)))
      (mergeRecord_absorb_step e y d hey hy (hL d (by simp)))

/-- Re-applying a whole run of duplicate-key-free rows changes nothing. -/
theorem foldMergeRec_idem (L : List PatientRecord) (e : MergedRecord)
    (hL : ∀ d ∈ L, rowNodup d) :
    foldMergeRec (foldMergeRec e L) L = foldMergeRec e L := by
  cases L with
  | nil => rfl
  | cons d ds =>
    show foldMergeRec
        (mergeRecord (foldMergeRec (mergeRecord e d) ds) d) ds =
      foldMergeRec (mergeRecord e d) ds
    exact foldMergeRec_absorb ds (mergeRecord e d) d
      (fun x hx => hL x (by simp [hx])) (hL d (by simp))
      (mergeRecord_absorb_self e d (hL d (by simp)))

/-- A run of rows sharing one id keeps that id on the record. -/
theorem foldMergeRec_id (x : String) :
    ∀ (L : List PatientRecord) (e : MergedRecord),
      (∀ d ∈ L, d.id = x) → e.id = x → (foldMergeRec e L).id = x := by
  intro L
  induction L with
  | nil => intro e _ he; exact he
  | cons d ds ih =>
    intro e hL _
    show (foldMergeRec (mergeRecord e d) ds).id = x
    exact ih (mergeRecord e d) (fun y hy => hL y (by simp [hy]))
      (hL d (by simp))

/-- The fuel of `buildNewAux` is irrelevant once adequate. -/
theorem buildNewAux_fuel :
    ∀ (f1 f2 : Nat) (l : List PatientRecord), l.length ≤ f1 →
      l.length ≤ f2 → buildNewAux f1 l = buildNewAux f2 l := by
  intro f1
  induction f1 with
  | zero =>
    intro f2 l h1 h2
    cases l with
    | nil => cases f2 <;> rfl
    | cons b B => simp at h1
  | succ f1 ih =>
    intro f2 l h1 h2
    cases l with
    | nil => cases f2 <;> rfl
    | cons b B =>
      cases f2 with
      | zero => simp at h2
      | succ f2 =>
        show foldMergeRec _ _ :: buildNewAux f1 (B.filter _) =
          foldMergeRec _ _ :: buildNewAux f2 (B.filter _)
        congr 1
        apply ih
        · have := List.length_filter_le (fun x => !(x.id == b.id)) B
          simp only [List.length_cons] at h1
          omega
        · have := List.length_filter_le (fun x => !(x.id == b.id)) B
          simp only [List.length_cons] at h2
          omega

/-- Unfolding `buildNew` on a cons. -/
theorem buildNew_cons (b : PatientRecord) (B : List PatientRecord) :
    buildNew (b :: B) =
      foldMergeRec (insertRecord b) (B.filter (fun x => x.id == b.id)) ::
        buildNew (B.filter (fun x => !(x.id == b.id))) := by
  show foldMergeRec _ _ :: buildNewAux B.length (B.filter _) = _
  congr 1
  exact buildNewAux_fuel B.length (B.filter (fun x => !(x.id == b.id))).length
    (B.filter (fun x => !(x.id == b.id)))
    (List.length_filter_le _ B) (le_refl _)

/-- An empty incoming batch leaves the roster unchanged. -/
theorem onePass_nil_right : ∀ R : List MergedRecord, onePass R [] = R := by
  intro R
  induction R with
  | nil => rfl
  | cons r rest ih =>
    show foldMergeRec r [] :: onePass rest [] = r :: rest
    rw [ih]
    rfl

/-- One upsert absorbed into the closed form. -/
theorem onePass_reconcileOne :
    ∀ (R : List MergedRecord) (B : List PatientRecord) (b : PatientRecord),
      onePass (reconcileOne R b) B = onePass R (b :: B) := by
  intro R
  induction R with
  | nil =>
    intro B b
    show onePass [insertRecord b] B = buildNew (b :: B)
    rw [buildNew_cons]
    rfl
  | cons r rest ih =>
    intro B b
    by_cases h : r.id = b.id
    · rw [show reconcileOne (r :: rest) b = mergeRecord r b :: rest from by
        simp [reconcileOne, h]]
      have hb : (b.id == r.id) = true := by simp [h]
      show foldMergeRec (mergeRecord r b)
          (B.filter (fun x => x.id == b.id)) ::
          onePass rest (B.filter (fun x => !(x.id == b.id))) =
        foldMergeRec r ((b :: B).filter (fun x => x.id == r.id)) ::
          onePass rest ((b :: B).filter (fun x => !(x.id == r.id)))
      rw [List.filter_cons, List.filter_cons]
      simp only [hb, Bool.not_true, if_true, if_false]
      simp only [h]
      rfl
    · rw [show reconcileOne (r :: rest) b = r :: reconcileOne rest b from by
        simp [reconcileOne, h]]
      have hb : (b.id == r.id) = false := by
        simp only [beq_eq_false_iff_ne, ne_eq]
        exact fun he => h he.symm
      show foldMergeRec r (B.filter (fun x => x.id == r.id)) ::
          onePass (reconcileOne rest b)
            (B.filter (fun x => !(x.id == r.id))) =
        foldMergeRec r ((b :: B).filter (fun x => x.id == r.id)) ::
          onePass rest ((b :: B).filter (fun x => !(x.id == r.id)))
      rw [List.filter_cons, List.filter_cons]
      simp only [hb, Bool.not_false, if_true, if_false]
      rw [ih]
      rfl

/-- `handleDataLoaded` equals its closed form. -/
theorem handleDataLoaded_onePass :
    ∀ (B : List PatientRecord) (R : List MergedRecord),
      handleDataLoaded R B = onePass R B := by
  intro B
  induction B with
  | nil => intro R; exact (onePass_nil_right R).symm
  | cons b B ih =>
    intro R
    show handleDataLoaded (reconcileOne R b) B = _
    rw [ih, onePass_reconcileOne]

/-- Re-running a batch over the records it freshly built changes
nothing. -/
theorem buildNew_onePass_idem :
    ∀ (n : Nat) (B : List PatientRecord), B.length ≤ n →
      (∀ b ∈ B, rowNodup b) → onePass (buildNew B) B = buildNew B := by
  intro n
  induction n with
  | zero =>
    intro B hB _
    cases B with
    | nil => rfl
    | cons b B => simp at hB
  | succ n ih =>
    intro B hB hN
    cases B with
    | nil => rfl
    | cons b B =>
      rw [buildNew_cons]
      have hM0id : (foldMergeRec (insertRecord b)
          (B.filter (fun x => x.id == b.id))).id = b.id := by
        apply foldMergeRec_id
        · intro d hd
          exact beq_iff_eq.mp (List.mem_filter.mp hd).2
        · rfl
      show foldMergeRec
          (foldMergeRec (insertRecord b) (B.filter (fun x => x.id == b.id)))
          ((b :: B).filter (fun x => x.id ==
            (foldMergeRec (insertRecord b)
              (B.filter (fun x => x.id == b.id))).id)) ::
          onePass (buildNew (B.filter (fun x => !(x.id == b.id))))
            ((b :: B).filter (fun x => !(x.id ==
              (foldMergeRec (insertRecord b)
                (B.filter (fun x => x.id == b.id))).id))) = _
      simp only [hM0id, List.filter_cons, beq_self_eq_true, Bool.not_true,
        if_true, if_false]
      congr 1
      · show foldMergeRec (mergeRecord
            (foldMergeRec (insertRecord b)
              (B.filter (fun x => x.id == b.id))) b)
            (B.filter (fun x => x.id == b.id)) = _
        exact foldMergeRec_absorb (B.filter (fun x => x.id == b.id))
          (insertRecord b) b
          (fun d hd => hN d (by simp [(List.mem_filter.mp hd).1]))
          (hN b (by simp))
          (insertRecord_absorb b (hN b (by simp)))
      · apply ih
        · have := List.length_filter_le (fun x => !(x.id == b.id)) B
          simp only [List.length_cons] at hB
          omega
        · intro d hd
          exact hN d (by simp [(List.mem_filter.mp hd).1])

/-- The closed form of `handleDataLoaded` is idempotent. -/
theorem onePass_idem :
    ∀ (R : List MergedRecord) (B : List PatientRecord),
      (∀ b ∈ B, rowNodup b) → onePass (onePass R B) B = onePass R B := by
  intro R
  induction R with
  | nil =>
    intro B hN
    exact buildNew_onePass_idem B.length B (le_refl _) hN
  | cons r rest ih =>
    intro B hN
    have hMid : (foldMergeRec r (B.filter (fun x => x.id == r.id))).id =
        r.id := by
      apply foldMergeRec_id
      · intro d hd
        exact beq_iff_eq.mp (List.mem_filter.mp hd).2
      · rfl
    show foldMergeRec (foldMergeRec r (B.filter (fun x => x.id == r.id)))
        (B.filter (fun x => x.id ==
          (foldMergeRec r (B.filter (fun x => x.id == r.id))).id)) ::
        onePass (onePass rest (B.filter (fun x => !(x.id == r.id))))
          (B.filter (fun x => !(x.id ==
            (foldMergeRec r (B.filter (fun x => x.id == r.id))).id))) = _
    simp only [hMid]
    congr 1
    · exact foldMergeRec_idem (B.filter (fun x => x.id == r.id)) r
        (fun d hd => hN d (List.mem_filter.mp hd).1)
    · exact ih (B.filter (fun x => !(x.id == r.id)))
        (fun d hd => hN d (List.mem_filter.mp hd).1)

/-- C5: reconciling the same incoming batch twice yields the same roster
as reconciling it once, for every roster and every batch of incoming rows
(each row, being a JavaScript object, carries duplicate-free column
keys). -/
theorem reconcile_idempotent (R : List MergedRecord)
    (B : List PatientRecord) (hB : ∀ b ∈ B, (metaKeys b.meta).Nodup) :
    handleDataLoaded (handleDataLoaded R B) B = handleDataLoaded R B := by
  simp only [handleDataLoaded_onePass]
  exact onePass_idem R B hB

/-- Witness for `reconcile_idempotent` on a concrete roster and batch
(one updating row, one inserting row). -/
theorem reconcile_idempotent_witness :
    handleDataLoaded
        (handleDataLoaded
          [demoRec "101" (some "prior report") .REVIEWED
            (some EMPTY_EXTRACTION)] [demoIncomingA, demoIncomingB])
        [demoIncomingA, demoIncomingB] =
      handleDataLoaded
        [demoRec "101" (some "prior report") .REVIEWED
          (some EMPTY_EXTRACTION)] [demoIncomingA, demoIncomingB] :=
  reconcile_idempotent _ _ (by decide)
